import Mathlib

/-!
Verification of `zipline/finance/commission.py` (commission models).

Shallow embedding conventions:
* Python floats are modelled as exact rationals (`ℚ`); the claims are about
  the arithmetic relations the code computes, not about rounding.
* `Order` and `Transaction` carry exactly the fields the commission code
  reads: `order.commission`, `order.filled`, `order.asset.root_symbol`,
  `transaction.amount`, `transaction.price`.
* A Python `dict` used as a symbol table is modelled as an association list
  with `List.lookup` (`dict.get(k, d)` becomes `(tbl.lookup k).getD d`).
* `min_trade_cost is None` is modelled as `Option ℚ` being `none`.
* Every operation in the source is total on numeric inputs, so all
  definitions are plain total functions.
-/

set_option autoImplicit false

namespace Zipline

/-- Order state read by the commission models: cumulative commission already
charged, cumulative signed quantity filled (excluding the current
transaction), and the asset's root symbol (used only by `PerContract`). -/
structure Order where
  commission : ℚ
  filled : ℚ
  root_symbol : String
  deriving Repr, DecidableEq

/-- Transaction fields read by the commission models: signed fill quantity
and execution price. -/
structure Transaction where
  amount : ℚ
  price : ℚ
  deriving Repr, DecidableEq

/-- Python's built-in `abs` on a numeric value, written so that the kernel
can evaluate it on concrete rationals (Mathlib's lattice `|·|` does not
reduce definitionally on `ℚ`). `pyAbs_eq_abs` identifies it with `|·|`. -/
def pyAbs (x : ℚ) : ℚ := if x < 0 then -x else x

/-- `DEFAULT_PER_SHARE_COST = 0.0075` from the source. -/
def DEFAULT_PER_SHARE_COST : ℚ := 0.0075

/-- `DEFAULT_PER_DOLLAR_COST = 0.0015` from the source. -/
def DEFAULT_PER_DOLLAR_COST : ℚ := 0.0015

/-- `DEFAULT_MINIMUM_COST_PER_TRADE = 1.0` from the source. -/
def DEFAULT_MINIMUM_COST_PER_TRADE : ℚ := 1.0

/-- `DEFAULT_FUTURE_COST_PER_TRADE = 2.35` from the source. -/
def DEFAULT_FUTURE_COST_PER_TRADE : ℚ := 2.35

/-- `DEFAULT_FUTURE_COST_BY_SYMBOL` from the source: the process-wide default
per-contract cost table keyed by root symbol. -/
def DEFAULT_FUTURE_COST_BY_SYMBOL : List (String × ℚ) :=
  [("AD", 2.35), ("AI", 2.35), ("BD", 2.35), ("BO", 2.35), ("BP", 2.35),
   ("CD", 2.35), ("CL", 2.35), ("CM", 2.35), ("CN", 2.35), ("DJ", 2.35),
   ("EC", 2.35), ("ED", 2.35), ("EE", 2.35), ("EI", 2.35), ("EL", 2.35),
   ("ER", 2.35), ("ES", 2.35), ("ET", 2.35), ("EU", 2.35), ("FC", 2.35),
   ("FF", 2.35), ("FI", 2.35), ("FS", 2.35), ("FV", 2.35), ("GC", 2.35),
   ("HG", 2.35), ("HO", 2.35), ("HU", 2.35), ("JE", 2.35), ("JY", 2.35),
   ("LB", 2.35), ("LC", 2.35), ("LH", 2.35), ("MB", 2.35), ("MD", 2.35),
   ("ME", 2.35), ("MG", 2.35), ("MI", 2.35), ("MS", 2.35), ("MW", 2.35),
   ("ND", 2.35), ("NG", 2.35), ("NK", 2.35), ("NQ", 2.35), ("NZ", 2.35),
   ("OA", 2.35), ("PA", 2.35), ("PB", 2.35), ("PL", 2.35), ("QG", 2.35),
   ("QM", 2.35), ("RM", 2.35), ("RR", 2.35), ("SB", 2.35), ("SF", 2.35),
   ("SM", 2.35), ("SP", 2.35), ("SV", 2.35), ("SY", 2.35), ("TB", 2.35),
   ("TN", 2.35), ("TS", 2.35), ("TU", 2.35), ("TY", 2.35), ("UB", 2.35),
   ("US", 2.35), ("VX", 2.35), ("WC", 2.35), ("XB", 2.35), ("XG", 2.35),
   ("YM", 2.35), ("YS", 2.35)]

/-- `PerUnit._calculate(self, order, transaction, cost_per_unit)` from the
source, with the instance field `self.min_trade_cost` passed explicitly.
Mirrors the Python line by line:
`additional_commission = abs(transaction.amount * cost_per_unit)`;
if no minimum, return it; if `order.commission == 0`, return
`max(min_trade_cost, additional_commission)`; otherwise compute
`per_unit_total = order.filled * cost_per_unit + additional_commission` and
return `0` below the minimum, `per_unit_total - order.commission` above. -/
def PerUnit._calculate (min_trade_cost : Option ℚ) (order : Order)
    (transaction : Transaction) (cost_per_unit : ℚ) : ℚ :=
  let additional_commission := pyAbs (transaction.amount * cost_per_unit)
  match min_trade_cost with
  | none => additional_commission
  | some mtc =>
    if order.commission = 0 then
      max mtc additional_commission
    else
      let per_unit_total := order.filled * cost_per_unit + additional_commission
      if per_unit_total < mtc then 0
      else per_unit_total - order.commission

/-- Configuration of `PerShare` (equity unit-cost policy). -/
structure PerShare where
  cost_per_share : ℚ
  min_trade_cost : Option ℚ
  deriving Repr, DecidableEq

/-- `PerShare.__init__` from the source: stores `float(cost)` and the
minimum unchanged. On numeric inputs `float(cost)` always succeeds and the
constructor performs no further validation, so construction never fails;
`Except` records that absence of failure explicitly. -/
def PerShare.init (cost : ℚ) (min_trade_cost : Option ℚ) :
    Except String PerShare :=
  .ok { cost_per_share := cost, min_trade_cost := min_trade_cost }

/-- `PerShare.calculate` from the source: delegates to `PerUnit._calculate`
with `self.cost_per_share`. -/
def PerShare.calculate (self : PerShare) (order : Order)
    (transaction : Transaction) : ℚ :=
  PerUnit._calculate self.min_trade_cost order transaction self.cost_per_share

/-- Cost configuration of `PerContract`: in the source either a float or a
dict mapping root symbols to floats. -/
inductive ContractCost where
  | flat : ℚ → ContractCost
  | table : List (String × ℚ) → ContractCost
  deriving Repr, DecidableEq

/-- Configuration of `PerContract` (future unit-cost policy). -/
structure PerContract where
  cost_per_contract : ContractCost
  min_trade_cost : Option ℚ
  deriving Repr, DecidableEq

/-- `PerContract.__init__` from the source: coerces an integer cost to float
(absorbed by the `ℚ` embedding) and stores both fields with no validation,
so construction never fails. -/
def PerContract.init (cost : ContractCost) (min_trade_cost : Option ℚ) :
    Except String PerContract :=
  .ok { cost_per_contract := cost, min_trade_cost := min_trade_cost }

/-- Rate resolution inside `PerContract.calculate`: a flat cost is used
directly; a table is consulted at `order.asset.root_symbol` with
`backup_cost = DEFAULT_FUTURE_COST_BY_SYMBOL.get(root_symbol,
DEFAULT_FUTURE_COST_PER_TRADE)` as the fallback. -/
def PerContract.effective_cost_per_contract (self : PerContract)
    (order : Order) : ℚ :=
  match self.cost_per_contract with
  | .flat c => c
  | .table tbl =>
    let backup_cost :=
      (DEFAULT_FUTURE_COST_BY_SYMBOL.lookup order.root_symbol).getD
        DEFAULT_FUTURE_COST_PER_TRADE
    (tbl.lookup order.root_symbol).getD backup_cost

/-- `PerContract.calculate` from the source: resolves the per-contract rate
on every call, then delegates to `PerUnit._calculate`. -/
def PerContract.calculate (self : PerContract) (order : Order)
    (transaction : Transaction) : ℚ :=
  PerUnit._calculate self.min_trade_cost order transaction
    (self.effective_cost_per_contract order)

/-- Configuration of `PerTradeBase` (flat-trade policy). -/
structure PerTradeBase where
  cost : ℚ
  deriving Repr, DecidableEq

/-- `PerTradeBase.__init__` from the source: stores `float(cost)` with no
validation, so construction never fails on numeric input. -/
def PerTradeBase.init (cost : ℚ) : Except String PerTradeBase :=
  .ok { cost := cost }

/-- `PerTradeBase.calculate` from the source: the configured cost when
`order.commission == 0`, else `0.0`. The transaction argument is unused. -/
def PerTradeBase.calculate (self : PerTradeBase) (order : Order)
    (_transaction : Transaction) : ℚ :=
  if order.commission = 0 then self.cost else 0

/-- Configuration of `PerDollarBase` (proportional-value policy). -/
structure PerDollarBase where
  cost_per_dollar : ℚ
  deriving Repr, DecidableEq

/-- `PerDollarBase.calculate` from the source:
`cost_per_share = transaction.price * self.cost_per_dollar`, then
`abs(transaction.amount) * cost_per_share`. The order argument is unused. -/
def PerDollarBase.calculate (self : PerDollarBase) (_order : Order)
    (transaction : Transaction) : ℚ :=
  let cost_per_share := transaction.price * self.cost_per_dollar
  pyAbs transaction.amount * cost_per_share

/-!
The caller protocol described by the spec (section 2): the caller invokes the
policy once per fill, accumulates the returned charge into
`order.commission`, and accumulates the fill amount into `order.filled`,
before the next call. The next definitions model one such run of a
unit-cost policy over a list of fill amounts (all at a common price, which
`PerUnit._calculate` never reads).
-/

/-- One step of the caller protocol for a unit-cost policy: charge the fill,
add the charge to `order.commission` and the fill amount to `order.filled`. -/
def applyFill (min_trade_cost : Option ℚ) (cost_per_unit price : ℚ)
    (order : Order) (amount : ℚ) : Order :=
  let charge := PerUnit._calculate min_trade_cost order ⟨amount, price⟩
    cost_per_unit
  { order with
      commission := order.commission + charge
      filled := order.filled + amount }

/-- Order state after running the caller protocol over a list of fills. -/
def runFills (min_trade_cost : Option ℚ) (cost_per_unit price : ℚ) :
    Order → List ℚ → Order
  | order, [] => order
  | order, a :: rest =>
    runFills min_trade_cost cost_per_unit price
      (applyFill min_trade_cost cost_per_unit price order a) rest

/-- List of charges returned by a unit-cost policy along a protocol run. -/
def runCharges (min_trade_cost : Option ℚ) (cost_per_unit price : ℚ) :
    Order → List ℚ → List ℚ
  | _, [] => []
  | order, a :: rest =>
    PerUnit._calculate min_trade_cost order ⟨a, price⟩ cost_per_unit ::
      runCharges min_trade_cost cost_per_unit price
        (applyFill min_trade_cost cost_per_unit price order a) rest

/-- List of charges returned by the flat-trade policy along a protocol run
(the caller starts `order.commission` at 0 and accumulates each charge). -/
def perTradeCharges (self : PerTradeBase) :
    Order → List Transaction → List ℚ
  | _, [] => []
  | order, t :: rest =>
    let charge := self.calculate order t
    charge ::
      perTradeCharges self
        { order with commission := order.commission + charge } rest

/-- Nonnegativity of a `PerContract` cost configuration: a flat cost is
nonnegative, or every value of the configured table is nonnegative. -/
def ContractCost.Nonneg : ContractCost → Prop
  | .flat c => 0 ≤ c
  | .table tbl => ∀ pr ∈ tbl, 0 ≤ pr.2

/-! Helper lemmas. -/

/-- `pyAbs` agrees with the absolute value `|·|` on `ℚ`. -/
theorem pyAbs_eq_abs (x : ℚ) : pyAbs x = |x| := by
  unfold pyAbs
  rcases lt_or_le x 0 with h | h
  · rw [if_pos h, abs_of_neg h]
  · rw [if_neg (not_lt.mpr h), abs_of_nonneg h]

/-- `pyAbs` is nonnegative. -/
theorem pyAbs_nonneg (x : ℚ) : 0 ≤ pyAbs x := by
  rw [pyAbs_eq_abs]; exact abs_nonneg x

/-- `pyAbs` is even. -/
theorem pyAbs_neg (x : ℚ) : pyAbs (-x) = pyAbs x := by
  rw [pyAbs_eq_abs, pyAbs_eq_abs, abs_neg]

/-- Branch lemma: with a minimum configured and no commission paid yet,
`PerUnit._calculate` returns `max(min_trade_cost, additional_commission)`. -/
theorem PerUnit.calculate_comm_zero (m r : ℚ) (o : Order) (t : Transaction)
    (h : o.commission = 0) :
    PerUnit._calculate (some m) o t r = max m (pyAbs (t.amount * r)) := by
  simp [PerUnit._calculate, h]

/-- Branch lemma: with a minimum configured and commission already paid,
`PerUnit._calculate` compares the running per-unit total to the minimum. -/
theorem PerUnit.calculate_comm_ne_zero (m r : ℚ) (o : Order)
    (t : Transaction) (h : o.commission ≠ 0) :
    PerUnit._calculate (some m) o t r =
      if o.filled * r + pyAbs (t.amount * r) < m then 0
      else o.filled * r + pyAbs (t.amount * r) - o.commission := by
  simp [PerUnit._calculate, h]

/-- `runFills` accumulates fill amounts into `filled`. -/
theorem runFills_filled (mtc : Option ℚ) (r p : ℚ) (fills : List ℚ) :
    ∀ o : Order, (runFills mtc r p o fills).filled = o.filled + fills.sum := by
  induction fills with
  | nil => intro o; simp [runFills]
  | cons a rest ih =>
    intro o
    simp only [runFills, List.sum_cons]
    rw [ih]
    simp only [applyFill]
    ring

/-- The charges returned along a protocol run sum to the increase in the
order's cumulative commission. -/
theorem runCharges_sum (mtc : Option ℚ) (r p : ℚ) (fills : List ℚ) :
    ∀ o : Order, (runCharges mtc r p o fills).sum
      = (runFills mtc r p o fills).commission - o.commission := by
  induction fills with
  | nil => intro o; simp [runCharges, runFills]
  | cons a rest ih =>
    intro o
    simp only [runCharges, runFills, List.sum_cons]
    rw [ih]
    simp only [applyFill]
    ring

/-- One protocol step of a unit-cost policy with minimum `m` preserves the
invariant `commission = max m (filled * r)`, for a nonnegative fill on a
nonnegatively-filled order. -/
theorem applyFill_commission_max (m r p a : ℚ) (o : Order) (hr : 0 ≤ r)
    (ha : 0 ≤ a) (hf : 0 ≤ o.filled)
    (hc : o.commission = max m (o.filled * r)) :
    (applyFill (some m) r p o a).commission = max m ((o.filled + a) * r) := by
  have har : 0 ≤ a * r := mul_nonneg ha hr
  have hfr : 0 ≤ o.filled * r := mul_nonneg hf hr
  have habs : pyAbs ((⟨a, p⟩ : Transaction).amount * r) = a * r := by
    show pyAbs (a * r) = a * r
    rw [pyAbs_eq_abs, abs_of_nonneg har]
  have hcomm : (applyFill (some m) r p o a).commission
      = o.commission + PerUnit._calculate (some m) o ⟨a, p⟩ r := rfl
  rw [hcomm]
  by_cases h0 : o.commission = 0
  · rw [PerUnit.calculate_comm_zero m r o ⟨a, p⟩ h0, habs, h0, zero_add]
    have hfr0 : o.filled * r = 0 := by
      have hle : o.filled * r ≤ 0 := by
        calc o.filled * r ≤ max m (o.filled * r) := le_max_right _ _
          _ = 0 := by rw [← hc, h0]
      exact le_antisymm hle hfr
    rw [add_mul, hfr0, zero_add]
  · rw [PerUnit.calculate_comm_ne_zero m r o ⟨a, p⟩ h0, habs]
    by_cases hlt : o.filled * r + a * r < m
    · rw [if_pos hlt, add_zero, hc]
      have hstep : o.filled * r ≤ o.filled * r + a * r :=
        le_add_of_nonneg_right har
      rw [max_eq_left (le_of_lt (lt_of_le_of_lt hstep hlt)),
        max_eq_left (le_of_lt (by rw [add_mul]; exact hlt))]
    · rw [if_neg hlt]
      have hsum : o.commission + (o.filled * r + a * r - o.commission)
          = (o.filled + a) * r := by ring
      rw [hsum, max_eq_right (by rw [add_mul]; exact not_lt.mp hlt)]

/-- Protocol runs of a unit-cost policy with minimum `m` preserve the
invariant `commission = max m (filled * r)` across any list of nonnegative
fills, at a nonnegative rate. -/
theorem runFills_commission_max (m r p : ℚ) (hr : 0 ≤ r) (fills : List ℚ) :
    ∀ o : Order, (∀ a ∈ fills, 0 ≤ a) → 0 ≤ o.filled →
      o.commission = max m (o.filled * r) →
      (runFills (some m) r p o fills).commission
        = max m ((runFills (some m) r p o fills).filled * r) := by
  induction fills with
  | nil => intro o _ _ hc; simpa [runFills] using hc
  | cons a rest ih =>
    intro o hpos hf hc
    have ha : 0 ≤ a := hpos a (List.mem_cons_self a rest)
    simp only [runFills]
    apply ih
    · intro b hb; exact hpos b (List.mem_cons_of_mem a hb)
    · show 0 ≤ o.filled + a
      exact add_nonneg hf ha
    · have h1 := applyFill_commission_max m r p a o hr ha hf hc
      simpa [applyFill] using h1

/-- Summing absolute values agrees with summing, on nonnegative lists. -/
theorem sum_map_abs (l : List ℚ) (h : ∀ a ∈ l, 0 ≤ a) :
    (l.map fun a => |a|).sum = l.sum := by
  induction l with
  | nil => simp
  | cons a rest ih =>
    simp only [List.map_cons, List.sum_cons]
    rw [abs_of_nonneg (h a (List.mem_cons_self a rest)),
      ih (fun b hb => h b (List.mem_cons_of_mem a hb))]

/-- Once an order carries non-zero commission, the flat-trade policy charges
zero forever along the caller protocol. -/
theorem perTradeCharges_of_ne_zero (self : PerTradeBase)
    (ts : List Transaction) :
    ∀ o : Order, o.commission ≠ 0 →
      perTradeCharges self o ts = List.replicate ts.length 0 := by
  induction ts with
  | nil => intro o _; simp [perTradeCharges]
  | cons t rest ih =>
    intro o h0
    simp only [perTradeCharges, PerTradeBase.calculate, if_neg h0,
      List.length_cons, List.replicate_succ, List.cons.injEq]
    refine ⟨by norm_num, ?_⟩
    simp only [add_zero]
    exact ih _ h0

/-- Every value in the default future cost table is `2.35`. -/
theorem default_table_values :
    DEFAULT_FUTURE_COST_BY_SYMBOL.map Prod.snd
      = List.replicate 72 (2.35 : ℚ) := by rfl

/-- Every value in the default future cost table is nonnegative. -/
theorem default_table_nonneg :
    ∀ pr ∈ DEFAULT_FUTURE_COST_BY_SYMBOL, 0 ≤ pr.2 := by
  intro pr h
  have h2 : pr.2 ∈ DEFAULT_FUTURE_COST_BY_SYMBOL.map Prod.snd :=
    List.mem_map_of_mem Prod.snd h
  rw [default_table_values] at h2
  rw [List.eq_of_mem_replicate h2]
  norm_num

/-- Association-list lookup with a nonnegative default returns a nonnegative
value when every table entry is nonnegative. -/
theorem lookup_getD_nonneg (k : String) (d : ℚ) (hd : 0 ≤ d) :
    ∀ tbl : List (String × ℚ), (∀ pr ∈ tbl, 0 ≤ pr.2) →
      0 ≤ (tbl.lookup k).getD d := by
  intro tbl
  induction tbl with
  | nil => intro _; simpa [List.lookup] using hd
  | cons pr rest ih =>
    intro h
    obtain ⟨s, v⟩ := pr
    rw [List.lookup]
    by_cases hks : k == s
    · rw [hks]
      simpa using h (s, v) (List.mem_cons_self _ _)
    · rw [Bool.eq_false_iff.mpr hks]
      exact ih fun q hq => h q (List.mem_cons_of_mem _ hq)

/-! Claim theorems. -/

/-- C1: for the unit-cost policy (PerShare/PerContract) with configured
minimum `m` and nonnegative per-unit rate `r` (the spec constrains
`cost_per_unit` to be ≥ 0): when `order.commission = 0` the result is
`max m (|amount| * r)`; when `order.commission ≠ 0` the result is `0` if
the running total `order.filled * r + |amount| * r` is below `m`, and that
total minus `order.commission` otherwise. Concretely, with `r = 0.0075` and
`m = 1`, a first fill of amount 50 on a fresh order charges `1`, and a
second fill of amount 100 (commission 1, filled 50) charges `0.125`. -/
theorem perUnit_minimum_branches (m r : ℚ) (hr : 0 ≤ r) :
    (∀ (o : Order) (t : Transaction), o.commission = 0 →
      PerUnit._calculate (some m) o t r = max m (|t.amount| * r)) ∧
    (∀ (o : Order) (t : Transaction), o.commission ≠ 0 →
      PerUnit._calculate (some m) o t r =
        if o.filled * r + |t.amount| * r < m then 0
        else o.filled * r + |t.amount| * r - o.commission) ∧
    (PerUnit._calculate (some 1) ⟨0, 0, "CL"⟩ ⟨50, 10⟩ 0.0075 = 1 ∧
      PerUnit._calculate (some 1) ⟨1, 50, "CL"⟩ ⟨100, 10⟩ 0.0075 = 0.125) := by
  have habs : ∀ t : Transaction, pyAbs (t.amount * r) = |t.amount| * r := by
    intro t
    rw [pyAbs_eq_abs, abs_mul, abs_of_nonneg hr]
  refine ⟨?_, ?_, ?_, ?_⟩
  · intro o t h
    rw [PerUnit.calculate_comm_zero m r o t h, habs]
  · intro o t h
    rw [PerUnit.calculate_comm_ne_zero m r o t h, habs]
  · norm_num [PerUnit._calculate, pyAbs]
  · norm_num [PerUnit._calculate, pyAbs]

/-- Witness for C1: at `m = 1`, `r = 0.0075`, a fresh order and a fill of
amount 50, the charge is `max 1 (|50| * 0.0075)`. -/
theorem perUnit_minimum_branches_witness :
    PerUnit._calculate (some 1) ⟨0, 0, "CL"⟩ ⟨50, 10⟩ 0.0075
      = max 1 (|(50 : ℚ)| * 0.0075) :=
  (perUnit_minimum_branches 1 0.0075 (by norm_num)).1 ⟨0, 0, "CL"⟩ ⟨50, 10⟩ rfl

/-- C2 counterexample: with minimum 1 and rate 1, the caller protocol over
the signed fills `[2, -2, 2]` returns charges summing to `2`, while the
claim predicts `max 1 ((|2| + |-2| + |2|) * 1) = 6` after this prefix
(`order.filled` accumulates signed amounts, so mixed-sign fills break the
invariant stated over absolute amounts). -/
theorem perUnit_prefix_invariant_cex :
    (runCharges (some 1) 1 1 ⟨0, 0, "CL"⟩ [2, -2, 2]).sum = 2 ∧
    max (1 : ℚ) ((([2, -2, 2] : List ℚ).map fun a => |a|).sum * 1) = 6 ∧
    (2 : ℚ) ≠ 6 := by
  refine ⟨?_, ?_, by norm_num⟩
  · norm_num [runCharges, applyFill, PerUnit._calculate, pyAbs]
  · rw [show (([2, -2, 2] : List ℚ).map fun a => |a|)
        = [|(2 : ℚ)|, |(-2 : ℚ)|, |(2 : ℚ)|] from rfl]
    rw [show |(2 : ℚ)| = 2 from abs_of_nonneg (by norm_num),
      show |(-2 : ℚ)| = 2 from by rw [abs_neg]; exact abs_of_nonneg (by norm_num)]
    norm_num

/-- C2 (amended): the prefix invariant holds once all fill amounts are
nonnegative. For every nonempty list of nonnegative fills processed by the
caller protocol from a fresh order (commission 0, filled 0) at nonnegative
rate `r`, the sum of the returned charges equals
`max m (sum_of_absolute_fills * r)`. Quantifying over all fill lists covers
every nonempty prefix of a longer sequence, because the protocol state
after a prefix depends only on that prefix. -/
theorem perUnit_prefix_invariant (m r p : ℚ) (fills : List ℚ) (o : Order)
    (hr : 0 ≤ r) (hpos : ∀ a ∈ fills, 0 ≤ a) (hne : fills ≠ [])
    (hc : o.commission = 0) (hf : o.filled = 0) :
    (runCharges (some m) r p o fills).sum
      = max m ((fills.map fun a => |a|).sum * r) := by
  obtain ⟨a, rest, rfl⟩ := List.exists_cons_of_ne_nil hne
  have ha : 0 ≤ a := hpos a (List.mem_cons_self a rest)
  have hrest : ∀ b ∈ rest, 0 ≤ b := fun b hb =>
    hpos b (List.mem_cons_of_mem a hb)
  rw [runCharges_sum, hc, sub_zero]
  simp only [runFills]
  have ho₁c : (applyFill (some m) r p o a).commission = max m (a * r) := by
    show o.commission + PerUnit._calculate (some m) o ⟨a, p⟩ r = _
    rw [PerUnit.calculate_comm_zero m r o ⟨a, p⟩ hc, hc, zero_add]
    show max m (pyAbs (a * r)) = _
    rw [pyAbs_eq_abs, abs_of_nonneg (mul_nonneg ha hr)]
  have ho₁f : (applyFill (some m) r p o a).filled = a := by
    show o.filled + a = a
    rw [hf, zero_add]
  rw [runFills_commission_max m r p hr rest _ hrest
      (by rw [ho₁f]; exact ha) (by rw [ho₁c, ho₁f]),
    runFills_filled, ho₁f,
    show ((a :: rest).map fun x => |x|).sum = a + rest.sum from by
      rw [sum_map_abs (a :: rest) hpos, List.sum_cons]]

/-- Witness for C2 (amended): minimum 1, rate 0.0075, sequential fills of
50 then 100 from a fresh order. -/
theorem perUnit_prefix_invariant_witness :
    (runCharges (some 1) 0.0075 10 ⟨0, 0, "CL"⟩ [50, 100]).sum
      = max 1 ((([50, 100] : List ℚ).map fun a => |a|).sum * 0.0075) :=
  perUnit_prefix_invariant 1 0.0075 10 [50, 100] ⟨0, 0, "CL"⟩ (by norm_num)
    (by intro a ha; fin_cases ha <;> norm_num) (by simp) rfl rfl

/-- C3 counterexample: a zero-amount transaction on a fresh order under the
flat-trade policy with cost 5 is charged 5, not 0 (the flat fee is keyed on
`order.commission = 0` alone, regardless of the transaction). -/
theorem zero_amount_cex :
    PerTradeBase.calculate ⟨5⟩ ⟨0, 0, "A"⟩ ⟨0, 10⟩ = 5 ∧ (5 : ℚ) ≠ 0 := by
  constructor
  · rfl
  · norm_num

/-- C3 (amended): a zero-amount transaction never raises (every policy's
calculation is a total function) and yields charge 0 under the
proportional-value policy and under unit-cost policies without a minimum;
under the flat-trade policy it yields the configured cost when
`order.commission = 0` (else 0), and under a unit-cost policy with minimum
`m` on a fresh order it yields `max m 0` (the minimum, for `m ≥ 0`). -/
theorem zero_amount_behavior :
    (∀ (pd : PerDollarBase) (o : Order) (p : ℚ),
      pd.calculate o ⟨0, p⟩ = 0) ∧
    (∀ (r : ℚ) (o : Order) (p : ℚ),
      PerUnit._calculate none o ⟨0, p⟩ r = 0) ∧
    (∀ (pc : PerContract) (o : Order) (p : ℚ), pc.min_trade_cost = none →
      pc.calculate o ⟨0, p⟩ = 0) ∧
    (∀ (pt : PerTradeBase) (o : Order) (p : ℚ),
      pt.calculate o ⟨0, p⟩ = if o.commission = 0 then pt.cost else 0) ∧
    (∀ (m r : ℚ) (o : Order) (p : ℚ), o.commission = 0 →
      PerUnit._calculate (some m) o ⟨0, p⟩ r = max m 0) := by
  have h0 : ∀ r : ℚ, pyAbs ((0 : ℚ) * r) = 0 := by
    intro r
    rw [zero_mul, pyAbs_eq_abs, abs_zero]
  refine ⟨?_, ?_, ?_, ?_, ?_⟩
  · intro pd o p
    show pyAbs 0 * _ = 0
    rw [show pyAbs (0 : ℚ) = 0 from by rw [pyAbs_eq_abs, abs_zero], zero_mul]
  · intro r o p
    show pyAbs ((0 : ℚ) * r) = 0
    exact h0 r
  · intro pc o p hmin
    show PerUnit._calculate pc.min_trade_cost o ⟨0, p⟩ _ = 0
    rw [hmin]
    exact h0 _
  · intro pt o p
    rfl
  · intro m r o p h
    rw [PerUnit.calculate_comm_zero m r o ⟨0, p⟩ h]
    show max m (pyAbs ((0 : ℚ) * r)) = max m 0
    rw [h0 r]

/-- Witness for C3 (amended): a per-contract policy without minimum charges
0 on a zero-amount transaction. -/
theorem zero_amount_behavior_witness :
    PerContract.calculate ⟨.flat 1, none⟩ ⟨3, 7, "CL"⟩ ⟨0, 10⟩ = 0 :=
  zero_amount_behavior.2.2.1 ⟨.flat 1, none⟩ ⟨3, 7, "CL"⟩ 10 rfl

/-- C4 counterexample: with every input nonnegative (cost 1, minimum 1,
commission 5, filled 1, amount 1, price 1) the per-share policy returns
−3 < 0: the already-paid branch returns `per_unit_total - order.commission`
without clamping at zero, so an `order.commission` exceeding the running
per-unit total yields a negative charge. -/
theorem calculate_nonneg_cex :
    PerShare.calculate ⟨1, some 1⟩ ⟨5, 1, "A"⟩ ⟨1, 1⟩ = -3 ∧
    ((-3 : ℚ) < 0) := by
  constructor
  · norm_num [PerShare.calculate, PerUnit._calculate, pyAbs]
  · norm_num

/-- C4 (amended): every policy returns a nonnegative charge on nonnegative
inputs, provided additionally — for a unit-cost policy with a configured
minimum — that `order.commission` does not exceed the running per-unit
total `order.filled * r + |amount| * r`, as is the case when the order's
commission was accumulated from this policy's own prior outputs. The last
conjunct shows the per-contract effective rate is nonnegative whenever the
configured cost is, so the unit-cost conjuncts cover `PerContract` too. -/
theorem calculate_nonneg (o : Order) (t : Transaction) :
    (∀ r : ℚ, 0 ≤ PerUnit._calculate none o t r) ∧
    (∀ m r : ℚ, 0 ≤ r → o.commission ≤ o.filled * r + |t.amount| * r →
      0 ≤ PerUnit._calculate (some m) o t r) ∧
    (∀ pt : PerTradeBase, 0 ≤ pt.cost → 0 ≤ pt.calculate o t) ∧
    (∀ pd : PerDollarBase, 0 ≤ pd.cost_per_dollar → 0 ≤ t.price →
      0 ≤ pd.calculate o t) ∧
    (∀ pc : PerContract, pc.cost_per_contract.Nonneg →
      0 ≤ pc.effective_cost_per_contract o) := by
  refine ⟨?_, ?_, ?_, ?_, ?_⟩
  · intro r
    exact pyAbs_nonneg _
  · intro m r hr hle
    by_cases h0 : o.commission = 0
    · rw [PerUnit.calculate_comm_zero m r o t h0]
      exact le_trans (pyAbs_nonneg _) (le_max_right _ _)
    · rw [PerUnit.calculate_comm_ne_zero m r o t h0]
      by_cases hlt : o.filled * r + pyAbs (t.amount * r) < m
      · rw [if_pos hlt]
      · rw [if_neg hlt]
        have habs : pyAbs (t.amount * r) = |t.amount| * r := by
          rw [pyAbs_eq_abs, abs_mul, abs_of_nonneg hr]
        rw [habs]
        linarith
  · intro pt hcost
    show 0 ≤ if o.commission = 0 then pt.cost else 0
    by_cases h0 : o.commission = 0
    · rw [if_pos h0]; exact hcost
    · rw [if_neg h0]
  · intro pd h1 h2
    exact mul_nonneg (pyAbs_nonneg _) (mul_nonneg h2 h1)
  · intro pc hcc
    rcases hpc : pc.cost_per_contract with c | tbl
    · rw [show pc.effective_cost_per_contract o = c from by
        simp [PerContract.effective_cost_per_contract, hpc]]
      rw [hpc] at hcc
      exact hcc
    · rw [show pc.effective_cost_per_contract o
          = (tbl.lookup o.root_symbol).getD
            ((DEFAULT_FUTURE_COST_BY_SYMBOL.lookup o.root_symbol).getD
              DEFAULT_FUTURE_COST_PER_TRADE) from by
        simp [PerContract.effective_cost_per_contract, hpc]]
      rw [hpc] at hcc
      exact lookup_getD_nonneg o.root_symbol _
        (lookup_getD_nonneg o.root_symbol DEFAULT_FUTURE_COST_PER_TRADE
          (by norm_num [DEFAULT_FUTURE_COST_PER_TRADE])
          DEFAULT_FUTURE_COST_BY_SYMBOL default_table_nonneg)
        tbl hcc

/-- Witness for C4 (amended): the minimum-configured unit-cost conjunct at
commission 1, filled 50, amount 100, rate 0.0075. -/
theorem calculate_nonneg_witness :
    0 ≤ PerUnit._calculate (some 1) ⟨1, 50, "A"⟩ ⟨100, 10⟩ 0.0075 :=
  (calculate_nonneg ⟨1, 50, "A"⟩ ⟨100, 10⟩).2.1 1 0.0075 (by norm_num)
    (by rw [show |(100 : ℚ)| = 100 from abs_of_nonneg (by norm_num)]; norm_num)

/-- C5: the per-contract rate used on a call is the configured number when
the cost is flat; with a table it is the user table's entry for
`order.root_symbol` when present, else the `DEFAULT_FUTURE_COST_BY_SYMBOL`
entry when present, else `DEFAULT_FUTURE_COST_PER_TRADE`; and `calculate`
always delegates to the unit-cost computation at that per-call rate. -/
theorem perContract_fallback_chain (o : Order) (mtc : Option ℚ) :
    (∀ c : ℚ,
      PerContract.effective_cost_per_contract ⟨.flat c, mtc⟩ o = c) ∧
    (∀ (tbl : List (String × ℚ)) (c : ℚ),
      tbl.lookup o.root_symbol = some c →
      PerContract.effective_cost_per_contract ⟨.table tbl, mtc⟩ o = c) ∧
    (∀ (tbl : List (String × ℚ)) (c : ℚ),
      tbl.lookup o.root_symbol = none →
      DEFAULT_FUTURE_COST_BY_SYMBOL.lookup o.root_symbol = some c →
      PerContract.effective_cost_per_contract ⟨.table tbl, mtc⟩ o = c) ∧
    (∀ tbl : List (String × ℚ),
      tbl.lookup o.root_symbol = none →
      DEFAULT_FUTURE_COST_BY_SYMBOL.lookup o.root_symbol = none →
      PerContract.effective_cost_per_contract ⟨.table tbl, mtc⟩ o
        = DEFAULT_FUTURE_COST_PER_TRADE) ∧
    (∀ (pc : PerContract) (t : Transaction),
      pc.calculate o t = PerUnit._calculate pc.min_trade_cost o t
        (pc.effective_cost_per_contract o)) := by
  refine ⟨?_, ?_, ?_, ?_, ?_⟩
  · intro c
    rfl
  · intro tbl c h
    simp [PerContract.effective_cost_per_contract, h]
  · intro tbl c h1 h2
    simp [PerContract.effective_cost_per_contract, h1, h2]
  · intro tbl h1 h2
    simp [PerContract.effective_cost_per_contract, h1, h2]
  · intro pc t
    rfl

/-- Witness for C5: with an empty user table and root symbol "AD", the rate
falls back to the default-by-symbol table entry 2.35. -/
theorem perContract_fallback_chain_witness :
    PerContract.effective_cost_per_contract ⟨.table [], some 1⟩ ⟨0, 0, "AD"⟩
      = 2.35 :=
  (perContract_fallback_chain ⟨0, 0, "AD"⟩ (some 1)).2.2.1 [] 2.35 rfl rfl

/-- C6 counterexample: with configured cost 0 (a nonnegative cost the spec
permits), a one-call sequence on a fresh order returns charges `[0]` — no
call returns a non-zero result, contradicting "exactly one call returns a
non-zero result". -/
theorem perTrade_single_charge_cex :
    perTradeCharges ⟨0⟩ ⟨0, 0, "A"⟩ [⟨1, 1⟩] = [0] ∧
    List.countP (fun x => decide (x ≠ 0))
      (perTradeCharges ⟨0⟩ ⟨0, 0, "A"⟩ [⟨1, 1⟩]) = 0 := by
  constructor
  · rfl
  · rfl

/-- C6 (amended): the flat-trade policy returns the configured cost when
`order.commission = 0` and `0.0` otherwise; consequently, along the caller
protocol from a fresh order, for a non-empty call sequence and a non-zero
configured cost, the first call returns the cost and every later call
returns 0 — exactly one non-zero result. (With cost 0 or an empty sequence
no call returns a non-zero result, which the original claim excluded.) -/
theorem perTrade_single_charge (self : PerTradeBase) :
    (∀ (o : Order) (t : Transaction),
      self.calculate o t = if o.commission = 0 then self.cost else 0) ∧
    (∀ (o : Order) (t : Transaction) (ts : List Transaction),
      o.commission = 0 → self.cost ≠ 0 →
      perTradeCharges self o (t :: ts)
        = self.cost :: List.replicate ts.length 0) := by
  refine ⟨fun o t => rfl, ?_⟩
  intro o t ts hc hcost
  simp only [perTradeCharges, PerTradeBase.calculate, if_pos hc]
  congr 1
  apply perTradeCharges_of_ne_zero
  show o.commission + self.cost ≠ 0
  rw [hc, zero_add]
  exact hcost

/-- Witness for C6 (amended): cost 5, a fresh order, two calls: charges are
`[5, 0]`. -/
theorem perTrade_single_charge_witness :
    perTradeCharges ⟨5⟩ ⟨0, 0, "A"⟩ [⟨1, 1⟩, ⟨2, 2⟩]
      = 5 :: List.replicate 1 0 :=
  (perTrade_single_charge ⟨5⟩).2 ⟨0, 0, "A"⟩ ⟨1, 1⟩ [⟨2, 2⟩] rfl (by norm_num)

/-- C7: the proportional-value policy returns exactly
`|amount| * price * cost_per_dollar` on every call, and the result is
independent of the order argument (hence of `order.commission`,
`order.filled`, and any earlier calls — the policy keeps no state). -/
theorem perDollar_stateless_formula (pd : PerDollarBase) (o₁ o₂ : Order)
    (t : Transaction) :
    pd.calculate o₁ t = |t.amount| * t.price * pd.cost_per_dollar ∧
    pd.calculate o₁ t = pd.calculate o₂ t := by
  constructor
  · show pyAbs t.amount * (t.price * pd.cost_per_dollar) = _
    rw [pyAbs_eq_abs, mul_assoc]
  · rfl

/-- C8 counterexample: construction with a negative cost (and a negative
minimum) succeeds for every policy — the constructors store the values
without any validation, so "construction with a negative cost or minimum
does not succeed" is false on the code. -/
theorem construction_accepts_negative_cex :
    PerShare.init (-1) (some (-1)) = .ok ⟨-1, some (-1)⟩ ∧
    PerTradeBase.init (-5) = .ok ⟨-5⟩ ∧
    PerContract.init (.flat (-1)) (some (-1))
      = .ok ⟨.flat (-1), some (-1)⟩ := by
  refine ⟨rfl, rfl, rfl⟩

/-- C8 (amended): the constructors perform no range validation: every
numeric cost/minimum, negative ones included, is accepted at construction,
and calculation is a total function so configuration never causes a failure
at calculation time. (Non-numeric input fails in Python's `float(cost)`
conversion, outside this numeric embedding.) -/
theorem construction_no_validation (c : ℚ) (mtc : Option ℚ)
    (cc : ContractCost) :
    PerShare.init c mtc = .ok ⟨c, mtc⟩ ∧
    PerTradeBase.init c = .ok ⟨c⟩ ∧
    PerContract.init cc mtc = .ok ⟨cc, mtc⟩ := by
  refine ⟨rfl, rfl, rfl⟩

/-- C9: every policy's charge depends on the transaction amount only
through its magnitude: negating the amount leaves the result unchanged. -/
theorem calculate_sign_invariant (o : Order) (a p : ℚ) :
    (∀ (mtc : Option ℚ) (r : ℚ),
      PerUnit._calculate mtc o ⟨-a, p⟩ r
        = PerUnit._calculate mtc o ⟨a, p⟩ r) ∧
    (∀ ps : PerShare, ps.calculate o ⟨-a, p⟩ = ps.calculate o ⟨a, p⟩) ∧
    (∀ pc : PerContract, pc.calculate o ⟨-a, p⟩ = pc.calculate o ⟨a, p⟩) ∧
    (∀ pt : PerTradeBase, pt.calculate o ⟨-a, p⟩ = pt.calculate o ⟨a, p⟩) ∧
    (∀ pd : PerDollarBase, pd.calculate o ⟨-a, p⟩ = pd.calculate o ⟨a, p⟩) := by
  have key : ∀ r : ℚ, pyAbs (-a * r) = pyAbs (a * r) := by
    intro r
    rw [neg_mul, pyAbs_neg]
  have base : ∀ (mtc : Option ℚ) (r : ℚ),
      PerUnit._calculate mtc o ⟨-a, p⟩ r = PerUnit._calculate mtc o ⟨a, p⟩ r := by
    intro mtc r
    simp only [PerUnit._calculate]
    rw [key r]
  exact ⟨base, fun ps => base ps.min_trade_cost ps.cost_per_share,
    fun pc => base pc.min_trade_cost (pc.effective_cost_per_contract o),
    fun pt => rfl,
    fun pd => by
      show pyAbs (-a) * _ = pyAbs a * _
      rw [pyAbs_neg]⟩

/-- C10: the flat-trade policy's result is entirely independent of the
transaction argument — for a fixed policy and order, any two transactions
produce the same charge, which is determined by `order.commission` and the
configured cost alone. -/
theorem perTrade_transaction_independent (pt : PerTradeBase) (o : Order)
    (t₁ t₂ : Transaction) :
    pt.calculate o t₁ = pt.calculate o t₂ := rfl

end Zipline
